import Mathlib

/-!
Verification development for the telliot mining manager and dispute tracker
(src/ops/miningManager.go).

The Go source is shallowly embedded:

* `Label`, `sortLabels` embed `prometheus/pkg/labels` label sets and the
  `sort.Sort(lbls)` canonicalization (its `Less` compares `Name` only).
* `goInt64` embeds Go `(*big.Int).Int64()`: the value reduced mod `2^64`
  and reinterpreted as a signed 64-bit integer.
* `goWrap` embeds `github.com/pkg/errors.Wrap`, which returns nil when the
  wrapped error is nil.
* `addValLoop` / `addValTellor` embed `Dispute.addValTellor`, with the
  time-series store and the PSR reference-value provider abstracted as a
  `StoreOracle` deciding the outcome of each external call.
* `Core`, `processEvent`, `removePending`, `fireTask`, `runEvents`,
  `disputeRun` embed the event-handling part of `Dispute.Start` as a
  discrete-event machine: events arrive at integer times, every delayed
  append task fires `W` time units after it was launched unless its
  cancellation token was invoked strictly before the fire time.
* `sendWork`, `mgrLoop`, `runMgr` embed the `MiningMgr.Start` loop, driven
  by the sequence of select outcomes (shutdown signal, result, ticker).
* `connectLoop` and `outerLoop` embed the subscription retry state machine
  of `Dispute.Start`.

Times are modelled as `Int` (an abstract clock), big integers as `Int`,
Go errors as `Option String` (`none` = nil), and the `float64` payloads of
store samples as the integers the code converts (`float64` rounding above
`2^53` is not modelled; no claim depends on it).
-/

namespace Telliot

/-- A prometheus label, a `(name, value)` pair of strings. -/
structure Label where
  name : String
  value : String
deriving DecidableEq, Repr

/-- The order `sort.Sort(lbls)` sorts by: `labels.Labels.Less` compares
only the `Name` fields. -/
def labelLe (a b : Label) : Prop := a.name ≤ b.name

instance : DecidableRel labelLe := fun a b =>
  inferInstanceAs (Decidable (a.name ≤ b.name))

instance : IsTotal Label labelLe := ⟨fun a b => le_total a.name b.name⟩

instance : IsTrans Label labelLe := ⟨fun _ _ _ h1 h2 => le_trans h1 h2⟩

/-- The canonicalization the code performs before handing labels to the
store: `sort.Sort(lbls)` with the name-only comparison. -/
def sortLabels (l : List Label) : List Label := List.insertionSort labelLe l

/-- One sample handed to `Appender.Append`: sorted labels, a timestamp and
a numeric value. -/
structure Sample where
  lbls : List Label
  ts : Int
  value : Int
deriving DecidableEq, Repr

/-- Go `(*big.Int).Int64()`: the low 64 bits of the value interpreted as a
signed 64-bit integer. -/
def goInt64 (v : Int) : Int :=
  let a := v % (2 : Int) ^ 64
  if a < (2 : Int) ^ 63 then a else a - (2 : Int) ^ 64

/-- `github.com/pkg/errors.Wrap err msg`: annotates a non-nil error and
returns nil when `err` is nil. -/
def goWrap (e : Option String) (msg : String) : Option String :=
  match e with
  | none => none
  | some s => some (msg ++ ": " ++ s)

/-- A `TellorNonceSubmitted` event as consumed by the dispute tracker:
the raw-log `Removed` flag, the transaction hash used as map key, the
parallel `Value` and `RequestId` big-integer slices and the miner address
string. -/
structure Ev where
  removed : Bool
  txHash : String
  values : List Int
  requestIds : List Int
  miner : String
deriving DecidableEq, Repr

/-- One effect of `addValTellor` on the appender scope. -/
inductive DbAction where
  | append (s : Sample)
  | commit
  | rollback
deriving DecidableEq, Repr

/-- Outcomes of the external calls `addValTellor` makes: the error of the
k-th `Appender.Append` call, the result of `psrTellor.GetValue`, and the
error of `Appender.Commit`. -/
structure StoreOracle where
  appendErr : Nat → Option String
  psrVal : Int → Int → Except String Int
  commitErr : Option String

/-- The label literal for the observed value,
`{__name__: oracle_value, contract: tellor, id, miner}`. -/
def oracleLbls (reqId : Int) (miner : String) : List Label :=
  [⟨"__name__", "oracle_value"⟩, ⟨"contract", "tellor"⟩,
   ⟨"id", toString reqId⟩, ⟨"miner", miner⟩]

/-- The label literal for the reference value,
`{__name__: psr_value, contract: tellor, id}`. -/
def psrLbls (reqId : Int) : List Label :=
  [⟨"__name__", "psr_value"⟩, ⟨"contract", "tellor"⟩, ⟨"id", toString reqId⟩]

/-- The `for i, valAct := range event.Value` loop body of
`Dispute.addValTellor`: per observation it computes one timestamp, appends
the oracle sample, queries the PSR for the same id at `now - reorgEventWait`
and appends the reference sample; the first failing step aborts the loop
with a wrapped error. `k` counts `Append` calls for the oracle. -/
def addValLoop (o : StoreOracle) (W now : Int) (miner : String) :
    List (Int × Int) → Nat → Option String × List DbAction
  | [], _ => (none, [])
  | (valAct, reqId) :: rest, k =>
    let ts := now
    let lbls1 := sortLabels (oracleLbls reqId miner)
    match o.appendErr k with
    | some e => (goWrap (some e) "append values to the DB", [])
    | none =>
      let s1 : Sample := ⟨lbls1, ts, goInt64 valAct⟩
      match o.psrVal (goInt64 reqId) (now - W) with
      | .error e =>
        (goWrap (some e) ("getting value from the PSR id:" ++ toString (goInt64 reqId)),
         [DbAction.append s1])
      | .ok valExp =>
        let lbls2 := sortLabels (psrLbls reqId)
        match o.appendErr (k + 1) with
        | some e => (goWrap (some e) "append values to the DB", [DbAction.append s1])
        | none =>
          let s2 : Sample := ⟨lbls2, ts, valExp⟩
          let r := addValLoop o W now miner rest (k + 2)
          (r.1, DbAction.append s1 :: DbAction.append s2 :: r.2)

/-- `Dispute.addValTellor`: runs the loop body over the zipped
`(Value, RequestId)` slices, then the deferred resolution: rollback when
the named return `err` is non-nil, otherwise commit — and on commit failure
the code executes `err = errors.Wrap(err, "db append commit failed")` with
`err` still nil at that point. Returns the caller-visible error and the
appender action trace. -/
def addValTellor (o : StoreOracle) (W now : Int) (e : Ev) :
    Option String × List DbAction :=
  let r := addValLoop o W now e.miner (e.values.zip e.requestIds) 0
  match r.1 with
  | some m => (some m, r.2 ++ [DbAction.rollback])
  | none =>
    match o.commitErr with
    | some _ => (goWrap none "db append commit failed", r.2 ++ [DbAction.commit])
    | none => (none, r.2 ++ [DbAction.commit])

/-- Whether an action resolves the appender scope. -/
def isResolve : DbAction → Bool
  | DbAction.append _ => false
  | DbAction.commit => true
  | DbAction.rollback => true

/-- The samples of the `append` actions in a trace. -/
def appendsOf : List DbAction → List Sample
  | [] => []
  | DbAction.append s :: r => s :: appendsOf r
  | DbAction.commit :: r => appendsOf r
  | DbAction.rollback :: r => appendsOf r

/-- The samples an appender action trace actually persists: the appended
samples when the scope ends in a commit, nothing otherwise. -/
def retainedSamples (acts : List DbAction) : List Sample :=
  if acts.getLast? = some DbAction.commit then appendsOf acts else []

/-- A `StoreOracle` in which every external call succeeds, with `psr` the
reference-value provider. -/
def successOracle (psr : Int → Int → Int) : StoreOracle :=
  { appendErr := fun _ => none
    psrVal := fun i t => Except.ok (psr i t)
    commitErr := none }

/-- The samples `addValTellor` appends for an event when every external
call succeeds. -/
def addValSamples (psr : Int → Int → Int) (W now : Int) (e : Ev) : List Sample :=
  appendsOf (addValLoop (successOracle psr) W now e.miner (e.values.zip e.requestIds) 0).2

/-! ## The event-handling machine of `Dispute.Start`

State of the tracker: `pending` embeds the `pendingAppend` map (at most one
entry per transaction-hash key, newest first), `cancelAt` records for each
cancellation token the time its `context.CancelFunc` was invoked, `writes`
records every `addValTellor` execution that actually ran, and
`missingLogs` counts the "missing pending TX for removed event" error logs.
Tokens are numbered in creation order. -/

/-- A store write performed by a fired delayed-commit task. -/
structure WriteRec where
  key : String
  time : Int
  samples : List Sample
deriving DecidableEq, Repr

/-- The mutable state of the dispute tracker. -/
structure Core where
  pending : List (String × Nat)
  cancelAt : List (Nat × Int)
  nextToken : Nat
  writes : List WriteRec
  missingLogs : Nat
deriving DecidableEq, Repr

/-- The initial tracker state: an empty `pendingAppend` map. -/
def initCore : Core :=
  { pending := [], cancelAt := [], nextToken := 0, writes := [], missingLogs := 0 }

/-- Deletes the entry for a key from the pending map. -/
def eraseKey (k : String) (p : List (String × Nat)) : List (String × Nat) :=
  p.filter (fun kv => kv.1 ≠ k)

/-- `Dispute.removePending` at time `now`: look the key up in the pending
map; if absent log the protocol violation, otherwise invoke the
cancellation token and delete the entry. -/
def removePending (k : String) (now : Int) (c : Core) : Core :=
  match c.pending.lookup k with
  | none => { c with missingLogs := c.missingLogs + 1 }
  | some tok =>
    { c with pending := eraseKey k c.pending, cancelAt := (tok, now) :: c.cancelAt }

/-- A launched delayed-commit goroutine: its cancellation token, the time
its `reorgEventWait` ticker fires, and the event it would append. -/
structure DelayTask where
  token : Nat
  fireTime : Int
  ev : Ev
deriving DecidableEq, Repr

/-- The `case event := <-events` body of `Dispute.Start` at time `t`:
if the raw log is tagged removed, call `removePending`; then — the code has
no `continue`/`else` — unconditionally create a fresh cancellable context,
store it in the pending map under the event key, and launch a delayed
append task that fires `W` later. -/
def processEvent (W t : Int) (e : Ev) (c : Core) : Core × DelayTask :=
  let c1 := if e.removed then removePending e.txHash t c else c
  let tok := c1.nextToken
  ({ c1 with
      pending := (e.txHash, tok) :: eraseKey e.txHash c1.pending
      nextToken := tok + 1 },
   ⟨tok, t + W, e⟩)

/-- Whether a token was cancelled strictly before time `t` (the
`ctx.Done` arm of the delayed task wins its select). -/
def cancelledBefore (c : Core) (tok : Nat) (t : Int) : Bool :=
  match c.cancelAt.lookup tok with
  | none => false
  | some ct => ct < t

/-- A delayed-commit task reaching its select: if its context was cancelled
strictly before the ticker fired it just returns; otherwise it runs
`addValTellor` (recording the write) and then `removePending`. -/
def fireTask (psr : Int → Int → Int) (W : Int) (c : Core) (tk : DelayTask) : Core :=
  if cancelledBefore c tk.token tk.fireTime then c
  else
    let c1 := { c with
      writes := c.writes ++ [⟨tk.ev.txHash, tk.fireTime, addValSamples psr W tk.fireTime tk.ev⟩] }
    removePending tk.ev.txHash tk.fireTime c1

/-- Fires, in launch order, every queued task whose fire time is strictly
before `t`; returns the remaining queue and the updated state. -/
def fireDue (psr : Int → Int → Int) (W t : Int) :
    List DelayTask → Core → List DelayTask × Core
  | [], c => ([], c)
  | tk :: tks, c =>
    if tk.fireTime < t then fireDue psr W t tks (fireTask psr W c tk)
    else (tk :: tks, c)

/-- Runs the tracker over a timed event trace: before each arrival all
delayed tasks due strictly earlier fire, then the arrival is processed and
its task queued; after the last arrival every remaining task fires. -/
def runEvents (psr : Int → Int → Int) (W : Int) :
    List (Int × Ev) → List DelayTask → Core → Core
  | [], tasks, c => tasks.foldl (fireTask psr W) c
  | (t, e) :: rest, tasks, c =>
    let p := fireDue psr W t tasks c
    let pr := processEvent W t e p.2
    runEvents psr W rest (p.1 ++ [pr.2]) pr.1

/-- The whole tracker run from the initial state. -/
def disputeRun (psr : Int → Int → Int) (W : Int) (tr : List (Int × Ev)) : Core :=
  runEvents psr W tr [] initCore

/-- The single write a surviving event at arrival time `p.1` produces: its
task fires at `p.1 + W` and appends `addValSamples`. -/
def mkWriteF (psr : Int → Int → Int) (W : Int) (p : Int × Ev) : WriteRec :=
  ⟨p.2.txHash, p.1 + W, addValSamples psr W (p.1 + W) p.2⟩

/-! ## The `MiningMgr.Start` loop -/

/-- One `Work` item: the challenge (abstracted to an id), the randomized
start offset `uint64(rand.Int63())` and the range `N = math.MaxInt64`. -/
structure Work where
  challenge : Nat
  start : Nat
  n : Nat
deriving DecidableEq, Repr

/-- The outcome of one select iteration of the mining loop: the exit
signal, a result from the output channel (`none` is the nil sentinel), or
a ticker tick. -/
inductive MinerMsg where
  | exit
  | result (r : Option (Nat × String))
  | tick
deriving DecidableEq, Repr

/-- An observable action of the mining loop: pushing a `Work`, pushing the
nil sentinel work, or handing a solution to the solution handler. -/
inductive MinerAct where
  | pushWork (w : Work)
  | pushNil
  | submit (challenge : Nat) (nonce : String)
deriving DecidableEq, Repr

/-- The loop's collaborators: `pull k` is the k-th `tasker.PullUpdates()`
result and `rng k` the k-th `rand.Int63()` draw (reduced mod `2^63`). -/
structure MgrEnv where
  pull : Nat → Option Nat
  rng : Nat → Nat

/-- The mining-loop state: how many `PullUpdates` and random draws have
happened, whether the loop is still running, and the recorded actions. -/
structure MgrSt where
  pullIdx : Nat
  rngIdx : Nat
  running : Bool
  acts : List MinerAct
deriving DecidableEq, Repr

/-- The state at the top of the loop goroutine. -/
def initMgrSt : MgrSt := { pullIdx := 0, rngIdx := 0, running := true, acts := [] }

/-- The `sendWork` closure: pull an update; when there is none do nothing,
otherwise push one `Work` with a fresh random start and range
`math.MaxInt64`. -/
def sendWork (env : MgrEnv) (s : MgrSt) : MgrSt :=
  match env.pull s.pullIdx with
  | none => { s with pullIdx := s.pullIdx + 1 }
  | some c =>
    { s with
      pullIdx := s.pullIdx + 1
      rngIdx := s.rngIdx + 1
      acts := s.acts ++ [MinerAct.pushWork ⟨c, env.rng s.rngIdx % 2 ^ 63, 2 ^ 63 - 1⟩] }

/-- The `for { select ... } }` body of `MiningMgr.Start`: an exit signal
pushes the nil work and keeps looping; a nil result marks the loop no
longer running and returns (remaining messages are never seen); a real
result is handed to the solution handler; a tick calls `sendWork`. -/
def mgrLoop (env : MgrEnv) : List MinerMsg → MgrSt → MgrSt
  | [], s => s
  | MinerMsg.exit :: rest, s =>
    mgrLoop env rest { s with acts := s.acts ++ [MinerAct.pushNil] }
  | MinerMsg.result none :: _, s => { s with running := false }
  | MinerMsg.result (some r) :: rest, s =>
    mgrLoop env rest { s with acts := s.acts ++ [MinerAct.submit r.1 r.2] }
  | MinerMsg.tick :: rest, s => mgrLoop env rest (sendWork env s)

/-- `MiningMgr.Start`: the initial `sendWork()` followed by the loop. -/
def runMgr (env : MgrEnv) (msgs : List MinerMsg) : MgrSt :=
  mgrLoop env msgs (sendWork env initMgrSt)

/-! ## The subscription retry machine of `Dispute.Start` -/

/-- The observable outcome of the (re)subscription loop after a bounded
number of iterations. -/
inductive ConnectRes where
  | subscribed (attempt : Nat)
  | stopped (attempt : Nat)
  | retrying (attempt : Nat)
deriving DecidableEq, Repr

/-- The `for { select ctx.Done / default; newSubTellor; on error wait one
ticker tick and continue; break }` loop, both in its initial-connect and
re-subscribe uses. `ok k` is whether the k-th `newSubTellor` succeeds,
`cancelled k` whether the context is done when iteration `k` starts; one
iteration consumes exactly one fixed ticker interval on failure, and
`fuel` bounds the observed iterations. -/
def connectLoop (ok cancelled : Nat → Bool) : Nat → Nat → ConnectRes
  | k, 0 => ConnectRes.retrying k
  | k, fuel + 1 =>
    if cancelled k then ConnectRes.stopped k
    else if ok k then ConnectRes.subscribed k
    else connectLoop ok cancelled (k + 1) fuel

/-- One message the outer dispatch loop of `Dispute.Start` selects on. -/
inductive TrackMsg where
  | cancel
  | subErr
  | ev (e : Ev)
deriving DecidableEq, Repr

/-- The outcome of the outer dispatch loop on a message list. -/
inductive OuterOutcome where
  | terminated (processed : Nat)
  | live (processed : Nat)
deriving DecidableEq, Repr

/-- The outer `for { select ... } }` of `Dispute.Start`: the only `return`
statements sit in the `ctx.Done` arms; subscription errors re-enter the
retry loop and events are handled, both continuing the loop. -/
def outerLoop : List TrackMsg → Nat → OuterOutcome
  | [], n => OuterOutcome.live n
  | TrackMsg.cancel :: _, n => OuterOutcome.terminated n
  | TrackMsg.subErr :: rest, n => outerLoop rest (n + 1)
  | TrackMsg.ev _ :: rest, n => outerLoop rest (n + 1)

/-! ## Helper lemmas about `addValTellor` -/

/-- The loop body never resolves the appender scope: its action trace
consists of `append`s only. -/
lemma addValLoop_no_resolve (o : StoreOracle) (W now : Int) (m : String) :
    ∀ (l : List (Int × Int)) (k : Nat),
      (addValLoop o W now m l k).2.filter (fun a => isResolve a) = [] := by
  intro l
  induction l with
  | nil => intro k; rfl
  | cons p rest ih =>
    intro k
    rw [addValLoop]
    rcases p with ⟨valAct, reqId⟩
    cases o.appendErr k with
    | some e => rfl
    | none =>
      cases o.psrVal (goInt64 reqId) (now - W) with
      | error e => rfl
      | ok valExp =>
        cases o.appendErr (k + 1) with
        | some e => rfl
        | none => simpa [isResolve] using ih (k + 2)

/-- On an all-success run the loop appends exactly two samples per
observation. -/
lemma addValLoop_success_length (psr : Int → Int → Int) (W now : Int) (m : String) :
    ∀ (l : List (Int × Int)) (k : Nat),
      (appendsOf (addValLoop (successOracle psr) W now m l k).2).length = 2 * l.length := by
  intro l
  induction l with
  | nil => intro k; rfl
  | cons p rest ih =>
    intro k
    rcases p with ⟨valAct, reqId⟩
    rw [addValLoop]
    simp only [successOracle, appendsOf, List.length_cons]
    have h := ih (k + 2)
    simp only [successOracle] at h
    rw [h]
    ring

/-- `appendsOf` distributes over appending a resolution action. -/
lemma appendsOf_append_resolve (l : List DbAction) (a : DbAction)
    (ha : isResolve a = true) : appendsOf (l ++ [a]) = appendsOf l := by
  induction l with
  | nil => cases a <;> simp_all [appendsOf, isResolve]
  | cons x r ih => cases x <;> simp [appendsOf, ih]

/-- `List.filter` over appending one action. -/
lemma filter_resolve_append (l : List DbAction) (a : DbAction)
    (hl : l.filter (fun x => isResolve x) = []) (ha : isResolve a = true) :
    (l ++ [a]).filter (fun x => isResolve x) = [a] := by
  rw [List.filter_append, hl]
  simp [ha]

/-- A failing loop run appends strictly fewer than two samples per
observation: the observations after the failure are abandoned. -/
lemma addValLoop_fail_length (o : StoreOracle) (W now : Int) (m : String) :
    ∀ (l : List (Int × Int)) (k : Nat),
      (addValLoop o W now m l k).1 ≠ none →
      (appendsOf (addValLoop o W now m l k).2).length < 2 * l.length := by
  intro l
  induction l with
  | nil => intro k h; exact absurd rfl h
  | cons p rest ih =>
    intro k h
    rcases p with ⟨valAct, reqId⟩
    rw [addValLoop] at h ⊢
    cases hk : o.appendErr k with
    | some e => simp [hk, appendsOf, goWrap]
    | none =>
      simp only [hk] at h ⊢
      cases hv : o.psrVal (goInt64 reqId) (now - W) with
      | error e =>
        simp [hv, appendsOf, goWrap]
        omega
      | ok valExp =>
        simp only [hv] at h ⊢
        cases hk2 : o.appendErr (k + 1) with
        | some e =>
          simp [hk2, appendsOf, goWrap]
          omega
        | none =>
          simp only [hk2, appendsOf, List.length_cons] at h ⊢
          have := ih (k + 2) (by simpa using h)
          omega

/-- The last element of a list with one element appended. -/
lemma getLast?_app_one {α : Type} (l : List α) (a : α) : (l ++ [a]).getLast? = some a := by
  rw [List.getLast?_append_cons]
  rfl

/-! ## C3: the appender scope is resolved exactly once on every path -/

/-- C3. `addValTellor` resolves its appender scope exactly once on every
exit path: the action trace contains exactly one `commit`/`rollback`, it is
the final action, it is a `commit` precisely when the loop body produced no
error, a failing run retains no samples (rollback discards the partial
appends, which number strictly fewer than `2 x N`), and a successful run
retains its appends and commits. -/
theorem addValTellor_resolved_exactly_once (o : StoreOracle) (W now : Int) (e : Ev) :
    (addValTellor o W now e).2.filter (fun a => isResolve a) =
      [if (addValLoop o W now e.miner (e.values.zip e.requestIds) 0).1 = none
        then DbAction.commit else DbAction.rollback]
    ∧ (addValTellor o W now e).2.getLast? =
      some (if (addValLoop o W now e.miner (e.values.zip e.requestIds) 0).1 = none
        then DbAction.commit else DbAction.rollback)
    ∧ retainedSamples (addValTellor o W now e).2 =
      (if (addValLoop o W now e.miner (e.values.zip e.requestIds) 0).1 = none
        then appendsOf (addValLoop o W now e.miner (e.values.zip e.requestIds) 0).2
        else [])
    ∧ (if (addValLoop o W now e.miner (e.values.zip e.requestIds) 0).1 = none
        then True
        else (appendsOf (addValLoop o W now e.miner (e.values.zip e.requestIds) 0).2).length
          < 2 * (e.values.zip e.requestIds).length) := by
  have hbody := addValLoop_no_resolve o W now e.miner (e.values.zip e.requestIds) 0
  cases herr : (addValLoop o W now e.miner (e.values.zip e.requestIds) 0).1 with
  | some m =>
    refine ⟨?_, ?_, ?_, ?_⟩
    · simp only [addValTellor, herr]
      simpa using filter_resolve_append _ DbAction.rollback hbody rfl
    · simp [addValTellor, herr, getLast?_app_one]
    · simp [addValTellor, herr, retainedSamples, getLast?_app_one]
    · simpa [herr] using
        addValLoop_fail_length o W now e.miner (e.values.zip e.requestIds) 0 (by simp [herr])
  | none =>
    cases hc : o.commitErr with
    | some cm =>
      refine ⟨?_, ?_, ?_, ?_⟩
      · simp only [addValTellor, herr, hc]
        simpa using filter_resolve_append _ DbAction.commit hbody rfl
      · simp [addValTellor, herr, hc, getLast?_app_one]
      · simp [addValTellor, herr, hc, retainedSamples, getLast?_app_one,
          appendsOf_append_resolve _ DbAction.commit rfl]
      · simp [herr]
    | none =>
      refine ⟨?_, ?_, ?_, ?_⟩
      · simp only [addValTellor, herr, hc]
        simpa using filter_resolve_append _ DbAction.commit hbody rfl
      · simp [addValTellor, herr, hc, getLast?_app_one]
      · simp [addValTellor, herr, hc, retainedSamples, getLast?_app_one,
          appendsOf_append_resolve _ DbAction.commit rfl]
      · simp [herr]

/-! ## C4: a commit failure is silently dropped -/

/-- A store oracle in which every `Append` and `GetValue` succeeds but
`Commit` fails. -/
def commitFailOracle : StoreOracle :=
  { appendErr := fun _ => none
    psrVal := fun _ _ => Except.ok 3
    commitErr := some "disk full" }

/-- A one-observation event. -/
def evC4 : Ev := ⟨false, "0x1", [42], [1], "m"⟩

/-- C4 fails on the code. The deferred commit branch runs
`err = errors.Wrap(err, "db append commit failed")` with `err` nil, and
`errors.Wrap(nil, msg)` is nil: with every append succeeding and `Commit`
failing, `addValTellor` still attempts the commit as its last action but
returns a nil error, so the caller in `Dispute.Start` observes success and
logs nothing. The spec's claim that the caller observes a non-nil, logged
error is therefore false; only the "not retried" half holds. -/
theorem commit_failure_returns_nil_error :
    commitFailOracle.commitErr = some "disk full"
    ∧ (addValTellor commitFailOracle 5 100 evC4).1 = none
    ∧ (addValTellor commitFailOracle 5 100 evC4).2.getLast? = some DbAction.commit
    ∧ goWrap none "db append commit failed" = none := by
  exact ⟨rfl, rfl, rfl, rfl⟩

/-! ## C10: the oracle_value pipeline truncates through int64 -/

/-- The per-observation shape of a successful `addValTellor` run: for each
`(value, requestId)` pair one oracle sample carrying
`float64(valAct.Int64())` and one reference sample carrying the PSR value
for `id.Int64()` at `now - reorgEventWait`, both at the one timestamp taken
at the top of the loop body. -/
def pairedSamples (psr : Int → Int → Int) (W now : Int) (miner : String) :
    List (Int × Int) → List Sample
  | [] => []
  | p :: rest =>
    ⟨sortLabels (oracleLbls p.2 miner), now, goInt64 p.1⟩ ::
    ⟨sortLabels (psrLbls p.2), now, psr (goInt64 p.2) (now - W)⟩ ::
    pairedSamples psr W now miner rest

/-- The successful loop produces exactly the paired samples. -/
lemma addValSamples_eq_paired (psr : Int → Int → Int) (W now : Int) (m : String) :
    ∀ (l : List (Int × Int)) (k : Nat),
      appendsOf (addValLoop (successOracle psr) W now m l k).2 =
        pairedSamples psr W now m l := by
  intro l
  induction l with
  | nil => intro k; rfl
  | cons p rest ih =>
    intro k
    rcases p with ⟨valAct, reqId⟩
    rw [addValLoop, pairedSamples]
    simp only [successOracle, appendsOf]
    have h := ih (k + 2)
    simp only [successOracle] at h
    rw [h]

/-- C10. For every observation the stored oracle_value equals the observed
big integer truncated through Go's signed `Int64()` conversion (values in
the signed 64-bit range pass through unchanged; values outside are replaced
by their low 64 bits reinterpreted as a signed integer), and the psr_value
sample of the same observation carries the identical timestamp, computed
once per observation. -/
theorem oracle_value_int64_truncation (psr : Int → Int → Int) (W now : Int) (e : Ev) :
    addValSamples psr W now e =
      pairedSamples psr W now e.miner (e.values.zip e.requestIds)
    ∧ (∀ v : Int, -(2 ^ 63) ≤ v → v < 2 ^ 63 → goInt64 v = v)
    ∧ goInt64 (2 ^ 63) = -(2 ^ 63)
    ∧ goInt64 (2 ^ 64 + 5) = 5 := by
  refine ⟨addValSamples_eq_paired psr W now e.miner (e.values.zip e.requestIds) 0, ?_, by decide, by decide⟩
  intro v h1 h2
  simp only [goInt64]
  split_ifs <;> omega

/-- Witness for C10 at a concrete observation, also instantiating the
in-range case at `v = 7`. -/
theorem oracle_value_int64_truncation_witness :
    addValSamples (fun _ _ => 3) 5 100 evC4 =
      pairedSamples (fun _ _ => 3) 5 100 evC4.miner (evC4.values.zip evC4.requestIds)
    ∧ goInt64 7 = 7 := by
  refine ⟨(oracle_value_int64_truncation (fun _ _ => 3) 5 100 evC4).1, ?_⟩
  exact (oracle_value_int64_truncation (fun _ _ => 3) 5 100 evC4).2.1 7 (by decide) (by decide)

end Telliot

namespace Telliot

/-! ## C9: label canonicalization -/

/-- Two label lists with the same `(name, value)` pairs in different
insertion orders, with a repeated name. -/
def dupLbls1 : List Label := [⟨"a", "1"⟩, ⟨"a", "2"⟩]

/-- The other insertion order of the same pairs. -/
def dupLbls2 : List Label := [⟨"a", "2"⟩, ⟨"a", "1"⟩]

/-- Both duplicate-name lists are already sorted for the name-only order. -/
lemma dupLbls_sorted : dupLbls1.Sorted labelLe ∧ dupLbls2.Sorted labelLe := by
  constructor <;> simp [dupLbls1, dupLbls2, List.sorted_cons, labelLe]

/-- C9 as stated fails on the code: the comparison `sort.Sort` uses looks
only at label names, so two orderings of the same pairs that repeat a name
are both "sorted" and the sort maps them to different sequences. -/
theorem label_sort_not_canonical_on_dup_names :
    List.Perm dupLbls1 dupLbls2 ∧ sortLabels dupLbls1 ≠ sortLabels dupLbls2 := by
  constructor
  · exact List.Perm.swap (⟨"a", "2"⟩ : Label) ⟨"a", "1"⟩ []
  · simp only [sortLabels]
    rw [dupLbls_sorted.1.insertionSort_eq, dupLbls_sorted.2.insertionSort_eq]
    decide

/-- Sorted lists over the name-only order with no repeated name are
determined by their multiset of elements. -/
lemma sorted_nodup_names_perm_eq :
    ∀ (l1 l2 : List Label), l1.Perm l2 → l1.Sorted labelLe → l2.Sorted labelLe →
      (l1.map Label.name).Nodup → l1 = l2 := by
  intro l1
  induction l1 with
  | nil =>
    intro l2 hp _ _ _
    exact hp.nil_eq
  | cons a t1 ih =>
    intro l2 hp hs1 hs2 hn
    cases l2 with
    | nil => exact absurd hp.symm.nil_eq (by simp)
    | cons b t2 =>
      by_cases hab : a = b
      · subst hab
        rw [ih t2 hp.cons_inv hs1.of_cons hs2.of_cons (by simpa using (List.nodup_cons.1 hn).2)]
      · exfalso
        have hbmem : b ∈ a :: t1 := hp.mem_iff.2 (List.mem_cons_self b t2)
        have hbt1 : b ∈ t1 := by
          cases List.mem_cons.1 hbmem with
          | inl h => exact absurd h.symm hab
          | inr h => exact h
        have hamem : a ∈ b :: t2 := hp.mem_iff.1 (List.mem_cons_self a t1)
        have hat2 : a ∈ t2 := by
          cases List.mem_cons.1 hamem with
          | inl h => exact absurd h hab
          | inr h => exact h
        have h1 : labelLe a b := List.rel_of_sorted_cons hs1 b hbt1
        have h2 : labelLe b a := List.rel_of_sorted_cons hs2 a hat2
        have heq : a.name = b.name := le_antisymm h1 h2
        have hnot : a.name ∉ t1.map Label.name := (List.nodup_cons.1 hn).1
        exact hnot (heq ▸ List.mem_map_of_mem Label.name hbt1)

/-- C9 amended. For label sets whose names are pairwise distinct — which
holds for every label set this code constructs — canonicalization is
order-independent: any two insertion orders of the same pairs sort to the
identical sequence; and sorting an already-sorted label list leaves it
unchanged. With a repeated name the order-independence half fails (see the
counterexample), because the comparison looks only at names. -/
theorem labels_canonicalization (l1 l2 : List Label) (hp : l1.Perm l2)
    (hn : (l1.map Label.name).Nodup) :
    sortLabels l1 = sortLabels l2
    ∧ ∀ l : List Label, l.Sorted labelLe → sortLabels l = l := by
  constructor
  · apply sorted_nodup_names_perm_eq
    · exact ((List.perm_insertionSort labelLe l1).trans hp).trans
        (List.perm_insertionSort labelLe l2).symm
    · exact List.sorted_insertionSort labelLe l1
    · exact List.sorted_insertionSort labelLe l2
    · exact (((List.perm_insertionSort labelLe l1).map Label.name).nodup_iff).2 hn
  · intro l hl
    exact hl.insertionSort_eq

/-- Witness for C9 at the code's own oracle_value label set, permuted. -/
theorem labels_canonicalization_witness :
    sortLabels [⟨"miner", "m"⟩, ⟨"id", "1"⟩, ⟨"contract", "tellor"⟩, ⟨"__name__", "oracle_value"⟩]
      = sortLabels (oracleLbls 1 "m") := by
  exact (labels_canonicalization _ _ (by decide) (by decide)).1

end Telliot

namespace Telliot

/-! ## C1 and C2: the removed-event handling of `Dispute.Start` -/

/-- A reference-value provider for the concrete traces. -/
def cexPsr : Int → Int → Int := fun _ _ => 7

/-- An ordinary nonce-submitted event. -/
def evA : Ev := ⟨false, "0xabc", [42], [1], "m"⟩

/-- The matching removed event delivered when a reorg drops `evA`. -/
def evARem : Ev := ⟨true, "0xabc", [42], [1], "m"⟩

/-- The C1 failing trace: `evA` at time 0, its removed event at time 1,
both well inside the reorg window `W = 5`. -/
def trC1 : List (Int × Ev) := [(0, evA), (1, evARem)]

/-- C1 fails on the code. Processing the removed event does cancel and
delete the pending entry, but the handler then falls through (there is no
`continue` after `removePending`): it registers a fresh pending entry for
the removed event's own key and launches a new delayed-commit task, whose
token is never cancelled, so one store write for the key happens at time
`1 + W` — the claim requires zero writes and no newly scheduled task.
Immediately after the removed event is processed the pending map holds the
new entry `("0xabc", 1)`, and two tokens have been allocated in total. -/
theorem removed_event_reschedules_append :
    (disputeRun cexPsr 5 trC1).writes.map WriteRec.key = ["0xabc"]
    ∧ (disputeRun cexPsr 5 trC1).writes.length = 1
    ∧ ((disputeRun cexPsr 5 trC1).writes.map WriteRec.time = [6])
    ∧ (processEvent 5 1 evARem (processEvent 5 0 evA initCore).1).1.pending = [("0xabc", 1)]
    ∧ (disputeRun cexPsr 5 trC1).nextToken = 2 := by
  refine ⟨by decide, by decide, by decide, by decide, by decide⟩

/-- The key shared by the C2 trace events. -/
def keyC2 : String := "0xdef"

/-- An event on the C2 key with the given removed flag. -/
def evB (rem : Bool) : Ev := ⟨rem, keyC2, [9], [2], "m"⟩

/-- The C2 failing trace: the event is delivered, reorged away, delivered
again, reorged away again and delivered once more, all within the reorg
window `W = 10` — an ordinary removed/re-added flip-flop. -/
def trC2 : List (Int × Ev) :=
  [(0, evB false), (1, evB true), (2, evB false), (3, evB true), (4, evB false)]

/-- C2 fails on the code. Because removed events re-register pending
entries (C1) and a re-delivered event overwrites the map entry of the
previous task without cancelling it, the flip-flop trace leaves two tasks
whose tokens are never cancelled before they fire: the store write for the
single key `0xdef` executes twice (at times 11 and 13), and the second
firing even finds the map entry already gone and logs the
"missing pending TX" protocol violation once. -/
theorem same_key_store_write_executes_twice :
    (disputeRun cexPsr 10 trC2).writes.map WriteRec.key = [keyC2, keyC2]
    ∧ (disputeRun cexPsr 10 trC2).writes.map WriteRec.time = [11, 13]
    ∧ (disputeRun cexPsr 10 trC2).missingLogs = 1
    ∧ (disputeRun cexPsr 10 trC2).pending = [] := by
  refine ⟨by decide, by decide, by decide, by decide⟩

end Telliot

namespace Telliot

/-! ## C5: surviving events commit exactly once

The helper functions describe the tracker state reached after a batch of
surviving arrivals: `tasksOf` the queued tasks with consecutive tokens from
`b`, `pendingOf` the pending map they leave (newest entry first),
`cancelsOf` the cancellation records their firings add. -/

/-- The task queue left by arrivals `mid` whose tokens start at `b`. -/
def tasksOf (W : Int) : Nat → List (Int × Ev) → List DelayTask
  | _, [] => []
  | b, (t, e) :: r => ⟨b, t + W, e⟩ :: tasksOf W (b + 1) r

/-- The pending map left by arrivals `mid` with tokens from `b`. -/
def pendingOf : Nat → List (Int × Ev) → List (String × Nat)
  | _, [] => []
  | b, (_, e) :: r => pendingOf (b + 1) r ++ [(e.txHash, b)]

/-- The cancellation records added by firing the tasks of `mid` in order:
each task cancels its own token at its own fire time. -/
def cancelsOf (W : Int) : Nat → List (Int × Ev) → List (Nat × Int)
  | _, [] => []
  | b, (t, _) :: r => cancelsOf W (b + 1) r ++ [(b, t + W)]

/-- The keys of a timed event list. -/
def keysOf (l : List (Int × Ev)) : List String := l.map (fun p => p.2.txHash)

/-- Every pending-map entry's key comes from the arrival list. -/
lemma mem_pendingOf_key :
    ∀ (mid : List (Int × Ev)) (b : Nat) (kv : String × Nat),
      kv ∈ pendingOf b mid → kv.1 ∈ keysOf mid := by
  intro mid
  induction mid with
  | nil => intro b kv h; exact absurd h (List.not_mem_nil kv)
  | cons p r ih =>
    intro b kv h
    rw [pendingOf] at h
    rcases List.mem_append.1 h with h1 | h1
    · exact List.mem_cons_of_mem _ (ih (b + 1) kv h1)
    · rw [List.mem_singleton.1 h1]
      exact List.mem_cons_self _ _

/-- Every cancellation record of `cancelsOf` has its token inside the
half-open token range of the batch. -/
lemma mem_cancelsOf_token (W : Int) :
    ∀ (mid : List (Int × Ev)) (b : Nat) (q : Nat × Int),
      q ∈ cancelsOf W b mid → b ≤ q.1 ∧ q.1 < b + mid.length := by
  intro mid
  induction mid with
  | nil => intro b q h; exact absurd h (List.not_mem_nil q)
  | cons p r ih =>
    intro b q h
    rw [cancelsOf] at h
    rcases List.mem_append.1 h with h1 | h1
    · have := ih (b + 1) q h1
      simp only [List.length_cons]
      omega
    · rw [List.mem_singleton.1 h1]
      simp only [List.length_cons]
      omega

/-- Looking up an absent key in an association list. -/
lemma lookupStr_none :
    ∀ (l : List (String × Nat)) (k : String), k ∉ l.map Prod.fst → l.lookup k = none := by
  intro l
  induction l with
  | nil => intro k _; rfl
  | cons p r ih =>
    intro k h
    rw [List.map_cons, List.mem_cons] at h
    push_neg at h
    rcases p with ⟨k0, v0⟩
    rw [List.lookup_cons]
    have hb : (k == k0) = false := beq_eq_false_iff_ne.2 h.1
    rw [hb]
    exact ih k h.2

/-- Looking up a token below every recorded token. -/
lemma lookupTok_none :
    ∀ (l : List (Nat × Int)) (b : Nat), (∀ q ∈ l, q.1 < b) → l.lookup b = none := by
  intro l
  induction l with
  | nil => intro b _; rfl
  | cons p r ih =>
    intro b h
    rcases p with ⟨t0, v0⟩
    rw [List.lookup_cons]
    have ht : t0 < b := h (t0, v0) (List.mem_cons_self _ _)
    have hb : (b == t0) = false := beq_eq_false_iff_ne.2 (by omega)
    rw [hb]
    exact ih b (fun q hq => h q (List.mem_cons_of_mem _ hq))

/-- Erasing an absent key is the identity. -/
lemma eraseKey_of_not_mem :
    ∀ (l : List (String × Nat)) (k : String), k ∉ l.map Prod.fst → eraseKey k l = l := by
  intro l k h
  rw [eraseKey, List.filter_eq_self]
  intro kv hkv
  have : kv.1 ≠ k := by
    intro he
    exact h (he ▸ List.mem_map_of_mem Prod.fst hkv)
  simpa using this

/-- When a key is absent from the left part, lookup passes to the right
part. -/
lemma lookupStr_append_none (xs ys : List (String × Nat)) (k : String)
    (h : xs.lookup k = none) : (xs ++ ys).lookup k = ys.lookup k := by
  induction xs with
  | nil => rfl
  | cons p t ih =>
    rcases p with ⟨k0, v0⟩
    rw [List.cons_append, List.lookup_cons]
    rw [List.lookup_cons] at h
    cases hb : (k == k0) with
    | true => rw [hb] at h; exact absurd h (by simp)
    | false =>
      rw [hb] at h
      exact ih h

/-- No key of the tail batch can be looked up in its pending map when it is
absent from the tail's keys. -/
lemma lookup_pendingOf_none (r : List (Int × Ev)) (b : Nat) (k : String)
    (h : k ∉ keysOf r) : (pendingOf b r).lookup k = none := by
  apply lookupStr_none
  intro hm
  rcases List.mem_map.1 hm with ⟨kv, hkv, hfst⟩
  exact h (hfst ▸ mem_pendingOf_key r b kv hkv)

/-- Looking up the oldest batch key finds its token at the end of the
pending map. -/
lemma lookup_pendingOf_head (b : Nat) (k : String) (r : List (Int × Ev))
    (h : k ∉ keysOf r) :
    (pendingOf (b + 1) r ++ [(k, b)]).lookup k = some b := by
  rw [lookupStr_append_none _ _ _ (lookup_pendingOf_none r (b + 1) k h), List.lookup_cons]
  simp

/-- Erasing the oldest batch key from its pending map removes exactly its
entry. -/
lemma eraseKey_pendingOf_head (b : Nat) (k : String) (r : List (Int × Ev))
    (h : k ∉ keysOf r) :
    eraseKey k (pendingOf (b + 1) r ++ [(k, b)]) = pendingOf (b + 1) r := by
  rw [eraseKey, List.filter_append]
  have h1 : List.filter (fun kv => kv.1 ≠ k) (pendingOf (b + 1) r) = pendingOf (b + 1) r := by
    have := eraseKey_of_not_mem (pendingOf (b + 1) r) k (by
      intro hm
      rcases List.mem_map.1 hm with ⟨kv, hkv, hfst⟩
      exact h (hfst ▸ mem_pendingOf_key r (b + 1) kv hkv))
    rw [eraseKey] at this
    exact this
  rw [h1]
  simp

end Telliot

namespace Telliot

/-- Appending one arrival to a batch prepends its pending entry. -/
lemma pendingOf_append_last :
    ∀ (xs : List (Int × Ev)) (b : Nat) (y : Int × Ev),
      pendingOf b (xs ++ [y]) = (y.2.txHash, b + xs.length) :: pendingOf b xs := by
  intro xs
  induction xs with
  | nil => intro b y; simp [pendingOf]
  | cons x tl ih =>
    intro b y
    rw [List.cons_append, pendingOf, ih (b + 1) y, pendingOf, List.cons_append]
    have harith : b + 1 + tl.length = b + (x :: tl).length := by
      simp only [List.length_cons]
      omega
    rw [harith]

/-- Appending one arrival to a batch appends its task. -/
lemma tasksOf_append_last (W : Int) :
    ∀ (xs : List (Int × Ev)) (b : Nat) (y : Int × Ev),
      tasksOf W b (xs ++ [y]) = tasksOf W b xs ++ [⟨b + xs.length, y.1 + W, y.2⟩] := by
  intro xs
  induction xs with
  | nil => intro b y; simp [tasksOf]
  | cons x tl ih =>
    intro b y
    rw [List.cons_append, tasksOf, ih (b + 1) y, tasksOf, List.cons_append]
    have harith : b + 1 + tl.length = b + (x :: tl).length := by
      simp only [List.length_cons]
      omega
    rw [harith]

/-- Firing a clean batch head: the task is uncancelled, writes its event
and removes exactly its own pending entry. -/
lemma fireTask_clean_head (psr : Int → Int → Int) (W : Int) (t0 : Int) (e0 : Ev)
    (r : List (Int × Ev)) (b : Nat) (c : Core)
    (hk : e0.txHash ∉ keysOf r)
    (hp : c.pending = pendingOf (b + 1) r ++ [(e0.txHash, b)])
    (hc : ∀ q ∈ c.cancelAt, q.1 < b) :
    fireTask psr W c ⟨b, t0 + W, e0⟩ =
      { pending := pendingOf (b + 1) r
        cancelAt := (b, t0 + W) :: c.cancelAt
        nextToken := c.nextToken
        writes := c.writes ++ [mkWriteF psr W (t0, e0)]
        missingLogs := c.missingLogs } := by
  rw [fireTask]
  have hcb : cancelledBefore c b (t0 + W) = false := by
    rw [cancelledBefore, lookupTok_none c.cancelAt b hc]
  rw [hcb]
  simp only [Bool.false_eq_true, if_false]
  rw [removePending]
  simp only [hp, lookup_pendingOf_head b e0.txHash r hk,
    eraseKey_pendingOf_head b e0.txHash r hk]
  rfl

/-- `fireDue` on a clean batch fires exactly the due prefix. -/
lemma fireDue_clean (psr : Int → Int → Int) (W t : Int) :
    ∀ (mid : List (Int × Ev)) (b : Nat) (c : Core),
      (keysOf mid).Nodup →
      c.pending = pendingOf b mid →
      (∀ q ∈ c.cancelAt, q.1 < b) →
      fireDue psr W t (tasksOf W b mid) c =
        (tasksOf W (b + (mid.takeWhile (fun p => decide (p.1 + W < t))).length)
            (mid.dropWhile (fun p => decide (p.1 + W < t))),
          { pending := pendingOf
              (b + (mid.takeWhile (fun p => decide (p.1 + W < t))).length)
              (mid.dropWhile (fun p => decide (p.1 + W < t)))
            cancelAt := cancelsOf W b (mid.takeWhile (fun p => decide (p.1 + W < t))) ++ c.cancelAt
            nextToken := c.nextToken
            writes := c.writes ++ (mid.takeWhile (fun p => decide (p.1 + W < t))).map (mkWriteF psr W)
            missingLogs := c.missingLogs }) := by
  intro mid
  induction mid with
  | nil =>
    intro b c hk hp hc
    rcases c with ⟨pend, canc, nt, wr, ml⟩
    simp only [pendingOf] at hp
    subst hp
    simp [fireDue, tasksOf, pendingOf, cancelsOf]
  | cons p r ih =>
    intro b c hk hp hc
    rcases p with ⟨t0, e0⟩
    by_cases h : t0 + W < t
    · have hkr : e0.txHash ∉ keysOf r := by
        have := hk
        rw [keysOf, List.map_cons, List.nodup_cons] at this
        exact this.1
      have hstep := fireTask_clean_head psr W t0 e0 r b c hkr (by rw [hp]; rfl) hc
      rw [tasksOf, fireDue]
      simp only [h, if_true]
      rw [hstep]
      rw [ih (b + 1) _ (by
            have := hk
            rw [keysOf, List.map_cons, List.nodup_cons] at this
            exact this.2)
          rfl
          (by
            intro q hq
            rcases List.mem_cons.1 hq with h1 | h1
            · rw [h1]; omega
            · have := hc q h1; omega)]
      rw [List.takeWhile_cons_of_pos (by simp [h]), List.dropWhile_cons_of_pos (by simp [h])]
      simp only [List.length_cons, List.map_cons, cancelsOf]
      refine congrArg₂ Prod.mk ?_ ?_
      · have harith : b + 1 + (r.takeWhile (fun p => decide (p.1 + W < t))).length
            = b + ((r.takeWhile (fun p => decide (p.1 + W < t))).length + 1) := by omega
        rw [harith]
      · have harith : b + 1 + (r.takeWhile (fun p => decide (p.1 + W < t))).length
            = b + ((r.takeWhile (fun p => decide (p.1 + W < t))).length + 1) := by omega
        rw [harith]
        simp only [List.append_assoc, List.singleton_append, List.cons_append, List.nil_append]
    · rcases c with ⟨pend, canc, nt, wr, ml⟩
      simp only at hp
      subst hp
      rw [tasksOf, fireDue]
      simp only [h, if_false]
      rw [List.takeWhile_cons_of_neg (by simp [h]), List.dropWhile_cons_of_neg (by simp [h])]
      simp only [List.length_nil, Nat.add_zero, cancelsOf, List.nil_append,
        List.map_nil, List.append_nil]
      rfl

end Telliot

namespace Telliot

/-- `keysOf` distributes over append. -/
lemma keysOf_append (xs ys : List (Int × Ev)) :
    keysOf (xs ++ ys) = keysOf xs ++ keysOf ys := by
  rw [keysOf, keysOf, keysOf, List.map_append]

/-- Firing every task of a clean batch empties the pending map and records
one write per event, in arrival order. -/
lemma fireAll_clean (psr : Int → Int → Int) (W : Int) :
    ∀ (mid : List (Int × Ev)) (b : Nat) (c : Core),
      (keysOf mid).Nodup →
      c.pending = pendingOf b mid →
      (∀ q ∈ c.cancelAt, q.1 < b) →
      (tasksOf W b mid).foldl (fireTask psr W) c =
        { pending := []
          cancelAt := cancelsOf W b mid ++ c.cancelAt
          nextToken := c.nextToken
          writes := c.writes ++ mid.map (mkWriteF psr W)
          missingLogs := c.missingLogs } := by
  intro mid
  induction mid with
  | nil =>
    intro b c hk hp hc
    rcases c with ⟨pend, canc, nt, wr, ml⟩
    simp only [pendingOf] at hp
    subst hp
    simp [tasksOf, cancelsOf]
  | cons p r ih =>
    intro b c hk hp hc
    rcases p with ⟨t0, e0⟩
    have hkr : e0.txHash ∉ keysOf r := by
      have := hk
      rw [keysOf, List.map_cons, List.nodup_cons] at this
      exact this.1
    have hstep := fireTask_clean_head psr W t0 e0 r b c hkr (by rw [hp]; rfl) hc
    rw [tasksOf, List.foldl_cons, hstep]
    rw [ih (b + 1) _ (by
          have := hk
          rw [keysOf, List.map_cons, List.nodup_cons] at this
          exact this.2)
        rfl
        (by
          intro q hq
          rcases List.mem_cons.1 hq with h1 | h1
          · rw [h1]; omega
          · have := hc q h1; omega)]
    rw [cancelsOf, List.map_cons]
    simp only [List.append_assoc, List.singleton_append, List.cons_append, List.nil_append]

/-- Running the tracker from a clean intermediate state over surviving
arrivals with fresh, pairwise-distinct keys: every batched and every
incoming event produces exactly one write, in arrival order, and the
pending map ends empty. -/
lemma runEvents_clean (psr : Int → Int → Int) (W : Int) :
    ∀ (rest mid : List (Int × Ev)) (b : Nat) (c : Core),
      (keysOf (mid ++ rest)).Nodup →
      (∀ p ∈ rest, p.2.removed = false) →
      c.pending = pendingOf b mid →
      c.nextToken = b + mid.length →
      (∀ q ∈ c.cancelAt, q.1 < b) →
      (runEvents psr W rest (tasksOf W b mid) c).writes
          = c.writes ++ (mid ++ rest).map (mkWriteF psr W)
        ∧ (runEvents psr W rest (tasksOf W b mid) c).pending = [] := by
  intro rest
  induction rest with
  | nil =>
    intro mid b c hk hrem hp hn hc
    rw [List.append_nil] at hk
    rw [runEvents, fireAll_clean psr W mid b c hk hp hc, List.append_nil]
    exact ⟨rfl, rfl⟩
  | cons pe rest ih =>
    intro mid b c hk hrem hp hn hc
    rcases pe with ⟨t, e⟩
    have hsplit : mid.takeWhile (fun p => decide (p.1 + W < t))
        ++ mid.dropWhile (fun p => decide (p.1 + W < t)) = mid :=
      List.takeWhile_append_dropWhile _ _
    have hlen : (mid.takeWhile (fun p => decide (p.1 + W < t))).length
        + (mid.dropWhile (fun p => decide (p.1 + W < t))).length = mid.length := by
      have := congrArg List.length hsplit
      rw [List.length_append] at this
      omega
    have hk_mid : (keysOf mid).Nodup := by
      rw [keysOf_append] at hk
      exact hk.of_append_left
    have hmemk : e.txHash ∉ keysOf mid := by
      rw [keysOf_append] at hk
      have hdisj := (List.nodup_append.1 hk).2.2
      intro hmem
      exact hdisj hmem (by
        rw [keysOf, List.map_cons]
        exact List.mem_cons_self _ _)
    have hmemk2 : e.txHash ∉ keysOf (mid.dropWhile (fun p => decide (p.1 + W < t))) := by
      intro hmem
      apply hmemk
      rw [keysOf] at hmem ⊢
      exact List.Sublist.mem hmem
        (List.Sublist.map (fun p : Int × Ev => p.2.txHash) (List.dropWhile_sublist _))
    have hfd := fireDue_clean psr W t mid b c hk_mid hp hc
    have hrm : e.removed = false := hrem (t, e) (List.mem_cons_self _ _)
    simp only [runEvents]
    rw [hfd]
    simp only [processEvent, hrm, Bool.false_eq_true, if_false]
    rw [eraseKey_of_not_mem _ _ (by
      intro hmem
      rcases List.mem_map.1 hmem with ⟨kv, hkv, hfst⟩
      exact hmemk2 (hfst ▸ mem_pendingOf_key _ _ kv hkv))]
    simp only [hn]
    have harith : b + mid.length
        = b + (mid.takeWhile (fun p => decide (p.1 + W < t))).length
          + (mid.dropWhile (fun p => decide (p.1 + W < t))).length := by omega
    have hpend : (e.txHash, b + mid.length) ::
        pendingOf (b + (mid.takeWhile (fun p => decide (p.1 + W < t))).length)
          (mid.dropWhile (fun p => decide (p.1 + W < t)))
        = pendingOf (b + (mid.takeWhile (fun p => decide (p.1 + W < t))).length)
          (mid.dropWhile (fun p => decide (p.1 + W < t)) ++ [(t, e)]) := by
      rw [pendingOf_append_last]
      rw [harith]
    have htasks : tasksOf W (b + (mid.takeWhile (fun p => decide (p.1 + W < t))).length)
          (mid.dropWhile (fun p => decide (p.1 + W < t)))
        ++ [⟨b + mid.length, t + W, e⟩]
        = tasksOf W (b + (mid.takeWhile (fun p => decide (p.1 + W < t))).length)
          (mid.dropWhile (fun p => decide (p.1 + W < t)) ++ [(t, e)]) := by
      rw [tasksOf_append_last]
      rw [harith]
    rw [hpend, htasks]
    have hih := ih (mid.dropWhile (fun p => decide (p.1 + W < t)) ++ [(t, e)])
      (b + (mid.takeWhile (fun p => decide (p.1 + W < t))).length)
      { pending := pendingOf (b + (mid.takeWhile (fun p => decide (p.1 + W < t))).length)
          (mid.dropWhile (fun p => decide (p.1 + W < t)) ++ [(t, e)])
        cancelAt := cancelsOf W b (mid.takeWhile (fun p => decide (p.1 + W < t))) ++ c.cancelAt
        nextToken := b + mid.length + 1
        writes := c.writes
          ++ (mid.takeWhile (fun p => decide (p.1 + W < t))).map (mkWriteF psr W)
        missingLogs := c.missingLogs }
      (by
        have hk2 : (keysOf (mid.dropWhile (fun p => decide (p.1 + W < t)))
            ++ keysOf ((t, e) :: rest)).Nodup := by
          have h5 : (keysOf ((mid.takeWhile (fun p => decide (p.1 + W < t))
              ++ mid.dropWhile (fun p => decide (p.1 + W < t))) ++ (t, e) :: rest)).Nodup := by
            rw [hsplit]
            exact hk
          rw [keysOf_append, keysOf_append, List.append_assoc] at h5
          exact h5.of_append_right
        rw [keysOf_append, keysOf_append]
        have h4 : keysOf ((t, e) :: rest) = e.txHash :: keysOf rest := rfl
        rw [h4] at hk2
        have h3 : keysOf [(t, e)] = [e.txHash] := rfl
        rw [h3, List.append_assoc, List.singleton_append]
        exact hk2)
      (fun p hp2 => hrem p (List.mem_cons_of_mem _ hp2))
      rfl
      (by
        simp only [List.length_append, List.length_singleton]
        omega)
      (by
        intro q hq
        rcases List.mem_append.1 hq with h1 | h1
        · have := mem_cancelsOf_token W _ b q h1
          omega
        · have := hc q h1
          omega)
    refine ⟨?_, hih.2⟩
    rw [hih.1]
    conv_rhs => rw [← hsplit]
    simp only [List.map_append, List.map_cons, List.map_nil, List.append_assoc,
      List.singleton_append, List.cons_append, List.nil_append]

end Telliot

namespace Telliot

/-- C5. For every trace of events that all survive the reorg safety window
(no removed events, each transaction observed once, arrivals in time
order): every event's delayed task performs exactly one transactional
append, at its arrival time plus the window, with the samples of
`addValTellor` under an all-success store; afterwards the pending map is
empty; and an event with `N` observations writes exactly `2 x N` samples,
the reference value being read at the fire time minus the window. -/
theorem dispute_surviving_events (psr : Int → Int → Int) (W : Int)
    (tr : List (Int × Ev))
    (_hW : 0 < W)
    (_ht : tr.Pairwise (fun p q => p.1 < q.1))
    (hk : (keysOf tr).Nodup)
    (hr : ∀ p ∈ tr, p.2.removed = false) :
    (disputeRun psr W tr).writes = tr.map (mkWriteF psr W)
    ∧ (disputeRun psr W tr).pending = []
    ∧ ∀ p ∈ tr, p.2.values.length = p.2.requestIds.length →
        (mkWriteF psr W p).samples.length = 2 * p.2.values.length := by
  have h := runEvents_clean psr W tr [] 0 initCore hk hr rfl rfl
    (fun q hq => absurd hq (List.not_mem_nil q))
  refine ⟨h.1, h.2, ?_⟩
  intro p hp hlen
  have h2 : (mkWriteF psr W p).samples.length
      = 2 * (p.2.values.zip p.2.requestIds).length :=
    addValLoop_success_length psr W (p.1 + W) p.2.miner (p.2.values.zip p.2.requestIds) 0
  rw [h2, List.length_zip, hlen, min_self]

/-- A surviving one-observation event and its singleton trace. -/
def evC5 : Ev := ⟨false, "0xw", [5], [9], "m"⟩

/-- The singleton witness trace for C5. -/
def trC5 : List (Int × Ev) := [(0, evC5)]

/-- Witness for C5: the singleton surviving trace produces exactly its one
write, an empty pending map, and two samples for its one observation. -/
theorem dispute_surviving_events_witness :
    (disputeRun cexPsr 5 trC5).writes = trC5.map (mkWriteF cexPsr 5)
    ∧ (disputeRun cexPsr 5 trC5).pending = []
    ∧ (mkWriteF cexPsr 5 (0, evC5)).samples.length = 2 * evC5.values.length := by
  have h := dispute_surviving_events cexPsr 5 trC5 (by decide)
    (by simp [trC5]) (by decide) (by decide)
  exact ⟨h.1, h.2.1, h.2.2 (0, evC5) (List.mem_cons_self _ _) rfl⟩

end Telliot

namespace Telliot

/-! ## C6 and C7: the mining orchestration loop -/

/-- The environment of the C6 counterexample: no challenge updates. -/
def envC6 : MgrEnv := { pull := fun _ => none, rng := fun _ => 0 }

/-- The C6 counterexample select sequence: the shutdown signal arrives,
then a found solution still sitting in the output channel, then the nil
sentinel. -/
def msgsC6 : List MinerMsg :=
  [MinerMsg.exit, MinerMsg.result (some (7, "abc")), MinerMsg.result none]

/-- C6 as stated fails on the code: after the shutdown signal the loop
pushes the nil work and keeps selecting, so a result delivered before the
nil sentinel is still handed to the solution handler — the action trace
shows a `submit` strictly after the shutdown response. -/
theorem submit_occurs_after_shutdown_signal :
    runMgr envC6 msgsC6
      = { pullIdx := 1, rngIdx := 0, running := false,
          acts := [MinerAct.pushNil, MinerAct.submit 7 "abc"] } := by
  rfl

/-- C6 amended. After a shutdown signal the loop pushes the nil sentinel
work and keeps draining; it terminates — marking itself no longer running
and ignoring everything after — exactly upon the nil result sentinel; over
any sentinel-free prefix the loop keeps processing (so `Submit` calls can
still happen between the shutdown signal and the sentinel, but none after
the sentinel). -/
theorem mgr_shutdown_drain (env : MgrEnv) (ms1 ms : List MinerMsg) (s : MgrSt)
    (h : MinerMsg.result none ∉ ms1) :
    mgrLoop env (ms1 ++ ms) s = mgrLoop env ms (mgrLoop env ms1 s)
    ∧ mgrLoop env (MinerMsg.result none :: ms) s = { s with running := false }
    ∧ mgrLoop env (MinerMsg.exit :: ms) s
        = mgrLoop env ms { s with acts := s.acts ++ [MinerAct.pushNil] } := by
  refine ⟨?_, rfl, rfl⟩
  induction ms1 generalizing s with
  | nil => rfl
  | cons m t ih =>
    have hm : m ≠ MinerMsg.result none := by
      intro he
      exact h (he ▸ List.mem_cons_self m t)
    have ht : MinerMsg.result none ∉ t := by
      intro he
      exact h (List.mem_cons_of_mem m he)
    cases m with
    | exit =>
      rw [List.cons_append, mgrLoop, mgrLoop]
      exact ih _ ht
    | tick =>
      rw [List.cons_append, mgrLoop, mgrLoop]
      exact ih _ ht
    | result r =>
      cases r with
      | none => exact absurd rfl hm
      | some rr =>
        rw [List.cons_append, mgrLoop, mgrLoop]
        exact ih _ ht

/-- Witness for the amended C6 at a concrete drain sequence. -/
theorem mgr_shutdown_drain_witness :
    mgrLoop envC6 ([MinerMsg.exit] ++ [MinerMsg.result none]) initMgrSt
      = mgrLoop envC6 [MinerMsg.result none] (mgrLoop envC6 [MinerMsg.exit] initMgrSt)
    ∧ mgrLoop envC6 (MinerMsg.result none :: [MinerMsg.result none]) initMgrSt
      = { initMgrSt with running := false }
    ∧ mgrLoop envC6 (MinerMsg.exit :: [MinerMsg.result none]) initMgrSt
      = mgrLoop envC6 [MinerMsg.result none]
          { initMgrSt with acts := initMgrSt.acts ++ [MinerAct.pushNil] } :=
  mgr_shutdown_drain envC6 [MinerMsg.exit] [MinerMsg.result none] initMgrSt (by decide)

/-- C7. `sendWork` pushes nothing when the challenge source reports no
update; on an update it pushes exactly one `Work` carrying the challenge,
the next random draw reduced into the `Int63` range as start offset, and
the maximal range `math.MaxInt64`; and two consecutive updated calls
consume distinct successive random draws. -/
theorem sendWork_spec (env : MgrEnv) (s : MgrSt) :
    (env.pull s.pullIdx = none → sendWork env s = { s with pullIdx := s.pullIdx + 1 })
    ∧ (∀ c, env.pull s.pullIdx = some c →
        sendWork env s =
          { s with
              pullIdx := s.pullIdx + 1
              rngIdx := s.rngIdx + 1
              acts := s.acts
                ++ [MinerAct.pushWork ⟨c, env.rng s.rngIdx % 2 ^ 63, 2 ^ 63 - 1⟩] })
    ∧ (∀ c c', env.pull s.pullIdx = some c → env.pull (s.pullIdx + 1) = some c' →
        (sendWork env (sendWork env s)).acts = s.acts
          ++ [MinerAct.pushWork ⟨c, env.rng s.rngIdx % 2 ^ 63, 2 ^ 63 - 1⟩,
              MinerAct.pushWork ⟨c', env.rng (s.rngIdx + 1) % 2 ^ 63, 2 ^ 63 - 1⟩]) := by
  refine ⟨?_, ?_, ?_⟩
  · intro h
    rw [sendWork, h]
  · intro c h
    rw [sendWork, h]
  · intro c c' h1 h2
    have e1 : sendWork env s =
        { s with
            pullIdx := s.pullIdx + 1
            rngIdx := s.rngIdx + 1
            acts := s.acts
              ++ [MinerAct.pushWork ⟨c, env.rng s.rngIdx % 2 ^ 63, 2 ^ 63 - 1⟩] } := by
      rw [sendWork, h1]
    rw [e1, sendWork]
    dsimp only
    rw [h2]
    simp [List.append_assoc]

/-- The environment of the C7 witness: no update on the first pull, then
always an update. -/
def envC7 : MgrEnv :=
  { pull := fun k => if k = 0 then none else some (k + 41), rng := fun k => k + 5 }

/-- Witness for C7: a no-update call pushes nothing; an updated call pushes
one work with the next draw; two updated calls consume successive draws. -/
theorem sendWork_spec_witness :
    sendWork envC7 initMgrSt = { initMgrSt with pullIdx := 1 }
    ∧ sendWork envC7 { initMgrSt with pullIdx := 1 }
      = { initMgrSt with
            pullIdx := 2
            rngIdx := 1
            acts := [MinerAct.pushWork ⟨42, 5, 2 ^ 63 - 1⟩] }
    ∧ (sendWork envC7 (sendWork envC7 { initMgrSt with pullIdx := 1 })).acts
      = [MinerAct.pushWork ⟨42, 5, 2 ^ 63 - 1⟩, MinerAct.pushWork ⟨43, 6, 2 ^ 63 - 1⟩] := by
  refine ⟨(sendWork_spec envC7 initMgrSt).1 rfl, ?_, ?_⟩
  · have h := (sendWork_spec envC7 { initMgrSt with pullIdx := 1 }).2.1 42 rfl
    simpa [initMgrSt] using h
  · have h := (sendWork_spec envC7 { initMgrSt with pullIdx := 1 }).2.2 42 43 rfl rfl
    simpa [initMgrSt] using h

end Telliot

namespace Telliot

/-! ## C8: the subscription loop retries forever and stops only on
cancellation -/

/-- With no cancellation and every attempt failing, the loop is still
retrying after any number of ticks, having made exactly one attempt per
tick. -/
lemma connectLoop_all_fail (ok cancelled : Nat → Bool)
    (hcanc : ∀ j, cancelled j = false) (hok : ∀ j, ok j = false) :
    ∀ (fuel k : Nat), connectLoop ok cancelled k fuel = ConnectRes.retrying (k + fuel) := by
  intro fuel
  induction fuel with
  | zero => intro k; rfl
  | succ n ih =>
    intro k
    rw [connectLoop, hcanc k, hok k]
    simp only [Bool.false_eq_true, if_false]
    rw [ih (k + 1)]
    have : k + 1 + n = k + (n + 1) := by omega
    rw [this]

/-- The loop reports stopped only from a `ctx.Done` observation. -/
lemma connectLoop_stopped (ok cancelled : Nat → Bool) :
    ∀ (fuel k j : Nat),
      connectLoop ok cancelled k fuel = ConnectRes.stopped j → cancelled j = true := by
  intro fuel
  induction fuel with
  | zero =>
    intro k j h
    exact absurd h (by rw [connectLoop]; intro he; cases he)
  | succ n ih =>
    intro k j h
    rw [connectLoop] at h
    by_cases hc : cancelled k = true
    · rw [hc] at h
      simp only [if_true] at h
      cases h
      exact hc
    · rw [Bool.not_eq_true] at hc
      rw [hc] at h
      simp only [Bool.false_eq_true, if_false] at h
      by_cases ho : ok k = true
      · rw [ho] at h
        simp only [if_true] at h
        cases h
      · rw [Bool.not_eq_true] at ho
        rw [ho] at h
        simp only [Bool.false_eq_true, if_false] at h
        exact ih (k + 1) j h

/-- The loop reports subscribed only from a successful, uncancelled
attempt. -/
lemma connectLoop_subscribed (ok cancelled : Nat → Bool) :
    ∀ (fuel k j : Nat),
      connectLoop ok cancelled k fuel = ConnectRes.subscribed j →
        ok j = true ∧ cancelled j = false := by
  intro fuel
  induction fuel with
  | zero =>
    intro k j h
    exact absurd h (by rw [connectLoop]; intro he; cases he)
  | succ n ih =>
    intro k j h
    rw [connectLoop] at h
    by_cases hc : cancelled k = true
    · rw [hc] at h
      simp only [if_true] at h
      cases h
    · rw [Bool.not_eq_true] at hc
      rw [hc] at h
      simp only [Bool.false_eq_true, if_false] at h
      by_cases ho : ok k = true
      · rw [ho] at h
        simp only [if_true] at h
        cases h
        exact ⟨ho, hc⟩
      · rw [Bool.not_eq_true] at ho
        rw [ho] at h
        simp only [Bool.false_eq_true, if_false] at h
        exact ih (k + 1) j h

/-- The outer dispatch loop terminates only on a cancel message. -/
lemma outerLoop_terminated :
    ∀ (ms : List TrackMsg) (n m : Nat),
      outerLoop ms n = OuterOutcome.terminated m → TrackMsg.cancel ∈ ms := by
  intro ms
  induction ms with
  | nil =>
    intro n m h
    exact absurd h (by rw [outerLoop]; intro he; cases he)
  | cons x rest ih =>
    intro n m h
    cases x with
    | cancel => exact List.mem_cons_self _ _
    | subErr =>
      rw [outerLoop] at h
      exact List.mem_cons_of_mem _ (ih (n + 1) m h)
    | ev e =>
      rw [outerLoop] at h
      exact List.mem_cons_of_mem _ (ih (n + 1) m h)

/-- C8. The subscription state machine gives up only on context
cancellation: with no cancellation and all attempts failing it is still
retrying after `fuel` ticks with one fixed-interval attempt per tick and no
cap; a stopped outcome implies the context was cancelled at that iteration;
a subscribed outcome implies a successful, uncancelled attempt; and the
outer dispatch loop terminates only when a cancel message arrives. -/
theorem subscription_retries_until_cancelled (ok cancelled : Nat → Bool)
    (k fuel : Nat) (ms : List TrackMsg) (n : Nat) :
    ((∀ j, cancelled j = false) → (∀ j, ok j = false) →
        connectLoop ok cancelled k fuel = ConnectRes.retrying (k + fuel))
    ∧ (∀ j, connectLoop ok cancelled k fuel = ConnectRes.stopped j → cancelled j = true)
    ∧ (∀ j, connectLoop ok cancelled k fuel = ConnectRes.subscribed j →
        ok j = true ∧ cancelled j = false)
    ∧ (∀ m, outerLoop ms n = OuterOutcome.terminated m → TrackMsg.cancel ∈ ms) :=
  ⟨fun hc ho => connectLoop_all_fail ok cancelled hc ho fuel k,
   fun j h => connectLoop_stopped ok cancelled fuel k j h,
   fun j h => connectLoop_subscribed ok cancelled fuel k j h,
   fun m h => outerLoop_terminated ms n m h⟩

/-- An attempt stream that always fails. -/
def okNever : Nat → Bool := fun _ => false

/-- A context that is never cancelled. -/
def cancNever : Nat → Bool := fun _ => false

/-- A context cancelled at iteration 2. -/
def cancAt2 : Nat → Bool := fun j => j == 2

/-- An attempt stream succeeding at iteration 1. -/
def okAt1 : Nat → Bool := fun j => j == 1

/-- Witness for C8 at concrete attempt and cancellation streams. -/
theorem subscription_retries_until_cancelled_witness :
    connectLoop okNever cancNever 0 3 = ConnectRes.retrying 3
    ∧ cancAt2 2 = true
    ∧ (okAt1 1 = true ∧ cancNever 1 = false)
    ∧ TrackMsg.cancel ∈ [TrackMsg.subErr, TrackMsg.cancel] := by
  refine ⟨?_, ?_, ?_, ?_⟩
  · exact (subscription_retries_until_cancelled okNever cancNever 0 3 [] 0).1
      (fun j => rfl) (fun j => rfl)
  · exact (subscription_retries_until_cancelled okNever cancAt2 0 3 [] 0).2.1 2 (by decide)
  · exact (subscription_retries_until_cancelled okAt1 cancNever 0 2 [] 0).2.2.1 1 (by decide)
  · exact (subscription_retries_until_cancelled okNever cancNever 0 0
      [TrackMsg.subErr, TrackMsg.cancel] 0).2.2.2 1 (by decide)

end Telliot
